import Mathlib

/-!
Verification development for the whisper-bot repository (`src/bot/main.py`).

Strings are embedded as `List Char`.  The Python helpers `str.split()`,
`str.strip()`, `str.split('\n\n')` and `re.split(r'(?<=[.!?])\s+', ...)`
are embedded as executable functions on character lists, and the
program-level functions `split_text`, `detect_language`, `build_keyboard`
and the `transcriptions` session store are defined on top of them,
mirroring the Python source statement by statement.
-/

set_option maxHeartbeats 1000000
set_option maxRecDepth 100000

namespace WhisperBot

/-- Python whitespace predicate: the character class matched by `\s` in the
`re` module and by the separators of `str.split()` / `str.strip()`
(ASCII whitespace, the C1 separator block, and the Unicode space characters). -/
def pyIsSpace (c : Char) : Bool :=
  c = ' ' || ('\x09' ≤ c && c ≤ '\x0d') || ('\x1c' ≤ c && c ≤ '\x1f') ||
  c = '\x85' || c = '\xa0' || c = ' ' ||
  (' ' ≤ c && c ≤ ' ') || c = ' ' || c = ' ' ||
  c = ' ' || c = ' ' || c = '　'

/-- Accumulator-style scanner behind `pyWords`: `cur` holds the (reversed)
letters of the word currently being read. -/
def pyWordsAux : List Char → List Char → List (List Char)
  | cur, [] => if cur = [] then [] else [cur.reverse]
  | cur, c :: rest =>
    if pyIsSpace c then
      if cur = [] then pyWordsAux [] rest
      else cur.reverse :: pyWordsAux [] rest
    else pyWordsAux (c :: cur) rest

/-- Python `s.split()` (no argument): the whitespace-delimited words of `s`,
with no empty strings in the result. -/
def pyWords (s : List Char) : List (List Char) :=
  pyWordsAux [] s

/-- Python `s.lstrip()`: drop leading whitespace. -/
def pyLStrip (s : List Char) : List Char :=
  s.dropWhile pyIsSpace

/-- Python `s.rstrip()`: drop trailing whitespace. -/
def pyRStrip (s : List Char) : List Char :=
  (s.reverse.dropWhile pyIsSpace).reverse

/-- Python `s.strip()`: drop leading and trailing whitespace. -/
def pyStrip (s : List Char) : List Char :=
  pyRStrip (pyLStrip s)

/-- Python `text.split('\n\n')` from line 50 of `split_text`. -/
def splitOnNN : List Char → List (List Char)
  | [] => [[]]
  | [c] => [[c]]
  | c :: d :: rest =>
    if c = '\n' && d = '\n' then [] :: splitOnNN rest
    else
      match splitOnNN (d :: rest) with
      | [] => [[c]]
      | p :: ps => (c :: p) :: ps

/-- Sentence-terminating punctuation of the regex `(?<=[.!?])\s+`. -/
def sentPunct (c : Char) : Bool :=
  c = '.' || c = '!' || c = '?'

/-- Whether a string starts with a whitespace character. -/
def headSpace : List Char → Bool
  | [] => false
  | c :: _ => pyIsSpace c

/-- Scanner behind `splitSentences`.  When `skipping` is true the scanner is
inside the whitespace run consumed by a `(?<=[.!?])\s+` match and discards
whitespace; a piece boundary is produced after each `[.!?]` character that
is immediately followed by whitespace. -/
def sentAux : Bool → List Char → List (List Char)
  | _, [] => [[]]
  | skipping, c :: rest =>
    if skipping && pyIsSpace c then sentAux true rest
    else if sentPunct c && headSpace rest then [c] :: sentAux true rest
    else
      match sentAux false rest with
      | [] => [[c]]
      | p :: ps => (c :: p) :: ps

/-- Python `re.split(r'(?<=[.!?])\s+', paragraph)` from line 61 of
`split_text`. -/
def splitSentences (s : List Char) : List (List Char) :=
  sentAux false s

/-- `MAX_MESSAGE_LENGTH = 4000` from line 35 of the source. -/
def MAX_MESSAGE_LENGTH : Int := 4000

/-- One iteration of the `for word in words` loop of `split_text`
(lines 66-71): the state is the pair `(parts, current_part)`. -/
def addWord (m : Int) (st : List (List Char) × List Char) (w : List Char) :
    List (List Char) × List Char :=
  if ((st.2.length : Int) + (w.length : Int) + 1 > m) then
    (st.1 ++ [pyStrip st.2], w)
  else
    (st.1, if st.2 = [] then w else st.2 ++ ' ' :: w)

/-- One iteration of the `for sentence in sentences` loop of `split_text`
(lines 62-76). -/
def addSentence (m : Int) (st : List (List Char) × List Char) (s : List Char) :
    List (List Char) × List Char :=
  if ((s.length : Int) > m) then
    (pyWords s).foldl (addWord m) st
  else if ((st.2.length : Int) + (s.length : Int) + 1 > m) then
    (st.1 ++ [pyStrip st.2], s)
  else
    (st.1, if st.2 = [] then s else st.2 ++ ' ' :: s)

/-- One iteration of the `for paragraph in paragraphs` loop of `split_text`
(lines 52-81). -/
def addParagraph (m : Int) (st : List (List Char) × List Char) (p : List Char) :
    List (List Char) × List Char :=
  if ((p.length : Int) > m) then
    let st1 := if st.2 = [] then st else (st.1 ++ [pyStrip st.2], ([] : List Char))
    (splitSentences p).foldl (addSentence m) st1
  else if ((st.2.length : Int) + (p.length : Int) + 2 > m) then
    (st.1 ++ [pyStrip st.2], p)
  else
    (st.1, if st.2 = [] then p else st.2 ++ '\n' :: '\n' :: p)

/-- `split_text(text, max_length)` from lines 38-86 of the source. -/
def split_text (text : List Char) (m : Int) : List (List Char) :=
  if (text.length : Int) ≤ m then [text]
  else
    let st := (splitOnNN text).foldl (addParagraph m) ([], [])
    if pyStrip st.2 = [] then st.1 else st.1 ++ [pyStrip st.2]

/-- The character class `[a-zA-Z]` of the `letters` regex in
`detect_language` (line 98). -/
def isLatinLetter (c : Char) : Bool :=
  ('a' ≤ c && c ≤ 'z') || ('A' ≤ c && c ≤ 'Z')

/-- The character class `[а-яА-ЯёЁ]` of the regexes in `detect_language`
(lines 98 and 103). -/
def isCyrLetter (c : Char) : Bool :=
  ('а' ≤ c && c ≤ 'я') || ('А' ≤ c && c ≤ 'Я') || c = 'ё' || c = 'Ё'

/-- `re.findall(r'[a-zA-Zа-яА-ЯёЁ]', text)` from line 98. -/
def findLetters (s : List Char) : List Char :=
  s.filter (fun c => isLatinLetter c || isCyrLetter c)

/-- `re.findall(r'[а-яА-ЯёЁ]', text)` from line 103. -/
def findCyrillic (s : List Char) : List Char :=
  s.filter isCyrLetter

/-- `detect_language(text)` from lines 89-106 of the source.  The Python
float comparison `len(cyrillic) / len(letters) >= 0.3` is modelled as the
exact rational comparison, written in cross-multiplied form
`10 * len(cyrillic) ≥ 3 * len(letters)` so that it is kernel-computable;
the equivalence with the rational ratio comparison is proved in
`detect_language_eq_ru_iff` below. -/
def detect_language (text : List Char) : List Char :=
  let letters := findLetters text
  if letters = [] then [ 'r', 'u']
  else
    let cyrillic := findCyrillic text
    if 10 * cyrillic.length ≥ 3 * letters.length then [ 'r', 'u'] else [ 'e', 'n']

/-- One inline keyboard button as built in `build_keyboard`. -/
structure InlineKeyboardButton where
  text : List Char
  callback_data : List Char
deriving DecidableEq, Repr

/-- `build_keyboard(text, message_id)` from lines 139-165 of the source;
the result is the `inline_keyboard` button grid (a list of rows). -/
def build_keyboard (text : List Char) (message_id : Nat) :
    List (List InlineKeyboardButton) :=
  let lang := detect_language text
  let translate_text :=
    if lang = [ 'r', 'u'] then ("Перевести на английский".data)
    else ("Перевести на русский".data)
  let target_lang := if lang = [ 'r', 'u'] then [ 'e', 'n'] else [ 'r', 'u']
  let word_count := (pyWords text).length
  let summary_rows :=
    if word_count ≥ 20 then
      [[InlineKeyboardButton.mk ("Краткий пересказ".data)
          (("summary:".data) ++ Nat.toDigits 10 message_id)]]
    else []
  summary_rows ++
    [[InlineKeyboardButton.mk translate_text
        (("translate:".data) ++ target_lang ++ [ ':'] ++ Nat.toDigits 10 message_id)]]

/-- The `transcriptions: dict[int, str]` store (line 32), embedded as an
association list in which the most recent assignment comes first. -/
abbrev TranscriptStore := List (Int × List Char)

/-- `transcriptions[message_id] = text` (lines 246 and 323). -/
def storePut (d : TranscriptStore) (k : Int) (v : List Char) : TranscriptStore :=
  (k, v) :: d

/-- `transcriptions.get(message_id)` (lines 382 and 427). -/
def storeGet (d : TranscriptStore) (k : Int) : Option (List Char) :=
  (d.find? (fun e => e.1 = k)).map (fun e => e.2)

/-- The store update performed by `handle_voice` (lines 243-246) and
`handle_audio` (lines 320-323): the provider text is stripped and stored
only when the stripped result is non-empty (Python truthiness of `text`). -/
def handleTranscription (d : TranscriptStore) (message_id : Int)
    (provider_text : List Char) : TranscriptStore :=
  let text := pyStrip provider_text
  if text = [] then d else storePut d message_id text

/-- The store obtained from the empty store by a sequence of
voice/audio-handler events `(message_id, provider_text)`. -/
def runEvents (events : List (Int × List Char)) : TranscriptStore :=
  events.foldl (fun d e => handleTranscription d e.1 e.2) []

/-- The store obtained from the empty store by a sequence of raw `put`s. -/
def runPuts (ops : List (Int × List Char)) : TranscriptStore :=
  ops.foldl (fun d e => storePut d e.1 e.2) []

/-- Joining a list of pieces with a list of separators:
`interleave [p1, p2, p3] [w1, w2] = p1 ++ w1 ++ p2 ++ w2 ++ p3`. -/
def interleave : List (List Char) → List (List Char) → List Char
  | [], _ => []
  | p :: _, [] => p
  | p :: ps, w :: ws => p ++ w ++ interleave ps ws

/-- Joining segments with a single-space separator. -/
def joinWithSpace : List (List Char) → List Char
  | [] => []
  | [p] => p
  | p :: q :: ps => p ++ ' ' :: joinWithSpace (q :: ps)

/-- `seps` is a valid list of dropped separators: each one is a non-empty
run of whitespace. -/
def GoodSeps (seps : List (List Char)) : Prop :=
  ∀ w ∈ seps, w ≠ [] ∧ ∀ c ∈ w, pyIsSpace c = true

/-- The words held by a `(parts, current_part)` state of `split_text`. -/
def stWords (st : List (List Char) × List Char) : List (List Char) :=
  (st.1.map pyWords).flatten ++ pyWords st.2

/-- A segment is acceptable when it fits the budget or is a single
whitespace-free word. -/
def SegOk (m : Int) (p : List Char) : Prop :=
  (p.length : Int) ≤ m ∨ ∀ c ∈ p, pyIsSpace c = false

/-- Invariant of the `(parts, current_part)` state: all flushed parts are
acceptable and so is the current buffer. -/
def StOk (m : Int) (st : List (List Char) × List Char) : Prop :=
  (∀ p ∈ st.1, SegOk m p) ∧ SegOk m st.2

/-- A transcript of `n` copies of the word `hello`, used for the keyboard
scenarios. -/
def exText (n : Nat) : List Char :=
  joinWithSpace (List.replicate n ("hello".data))

/-- A string whose letters are exactly 30 percent Cyrillic. -/
def exCyr30 : List Char :=
  ("абвabcdefg".data)

/-- A string whose letters are exactly 29 percent Cyrillic. -/
def exCyr29 : List Char :=
  List.replicate 29 'б' ++ List.replicate 71 'x'

/-! ### Lemmas about `pyWords` -/

@[simp] theorem pyWords_nil : pyWords [] = [] := rfl

theorem pyWordsAux_append_space {c : Char} (hc : pyIsSpace c = true) :
    ∀ (a : List Char) (cur b : List Char),
      pyWordsAux cur (a ++ c :: b) = pyWordsAux cur a ++ pyWordsAux [] b := by
  intro a
  induction a with
  | nil =>
    intro cur b
    by_cases hcur : cur = [] <;> simp [pyWordsAux, hc, hcur]
  | cons d a ih =>
    intro cur b
    by_cases hd : pyIsSpace d
    · by_cases hcur : cur = [] <;> simp [pyWordsAux, hd, hcur, ih]
    · simp [pyWordsAux, hd, ih]

theorem pyWords_append_space {c : Char} (hc : pyIsSpace c = true) (a b : List Char) :
    pyWords (a ++ c :: b) = pyWords a ++ pyWords b :=
  pyWordsAux_append_space hc a [] b

theorem pyWordsAux_all_space :
    ∀ (ws : List Char) (cur : List Char), (∀ c ∈ ws, pyIsSpace c = true) →
      pyWordsAux cur ws = if cur = [] then [] else [cur.reverse] := by
  intro ws
  induction ws with
  | nil => intro cur _; simp [pyWordsAux]
  | cons c ws ih =>
    intro cur h
    have hc : pyIsSpace c = true := h c (by simp)
    have hws : ∀ d ∈ ws, pyIsSpace d = true := fun d hd => h d (by simp [hd])
    have h0 : pyWordsAux [] ws = [] := by simpa using ih [] hws
    by_cases hcur : cur = [] <;> simp [pyWordsAux, hc, hcur, h0]

theorem pyWords_all_space {ws : List Char} (h : ∀ c ∈ ws, pyIsSpace c = true) :
    pyWords ws = [] := by
  simp [pyWords, pyWordsAux_all_space ws [] h]

theorem pyWords_leading_space (ws : List Char) (h : ∀ c ∈ ws, pyIsSpace c = true)
    (b : List Char) : pyWords (ws ++ b) = pyWords b := by
  induction ws with
  | nil => simp
  | cons c ws ih =>
    have hc : pyIsSpace c = true := h c (by simp)
    have hws : ∀ d ∈ ws, pyIsSpace d = true := fun d hd => h d (by simp [hd])
    simp [pyWords, pyWordsAux, hc] at ih ⊢
    exact ih hws

theorem pyWords_space_suffix {ws : List Char} (h : ∀ c ∈ ws, pyIsSpace c = true)
    (a : List Char) : pyWords (a ++ ws) = pyWords a := by
  cases ws with
  | nil => simp
  | cons c ws =>
    have hc : pyIsSpace c = true := h c (by simp)
    have hws : ∀ d ∈ ws, pyIsSpace d = true := fun d hd => h d (by simp [hd])
    rw [pyWords_append_space hc, pyWords_all_space hws, List.append_nil]

theorem pyWordsAux_mem :
    ∀ (s : List Char) (cur : List Char), (∀ c ∈ cur, pyIsSpace c = false) →
      ∀ w ∈ pyWordsAux cur s, w ≠ [] ∧ ∀ c ∈ w, pyIsSpace c = false := by
  intro s
  induction s with
  | nil =>
    intro cur hcur w hw
    by_cases h : cur = []
    · simp [pyWordsAux, h] at hw
    · simp [pyWordsAux, h] at hw
      subst hw
      refine ⟨by simpa using h, ?_⟩
      intro c hc
      exact hcur c (by simpa using hc)
  | cons d s ih =>
    intro cur hcur w hw
    by_cases hd : pyIsSpace d
    · by_cases h : cur = []
      · simp [pyWordsAux, hd, h] at hw
        exact ih [] (by simp) w hw
      · simp [pyWordsAux, hd, h] at hw
        rcases hw with hw | hw
        · subst hw
          refine ⟨by simpa using h, ?_⟩
          intro c hc
          exact hcur c (by simpa using hc)
        · exact ih [] (by simp) w hw
    · simp only [pyWordsAux, hd, Bool.false_eq_true, if_false, if_neg] at hw
      refine ih (d :: cur) ?_ w hw
      intro c hc
      rcases List.mem_cons.mp hc with rfl | hc
      · simpa using hd
      · exact hcur c hc

theorem pyWords_mem {s w : List Char} (hw : w ∈ pyWords s) :
    w ≠ [] ∧ ∀ c ∈ w, pyIsSpace c = false :=
  pyWordsAux_mem s [] (by simp) w hw

theorem pyWordsAux_no_space :
    ∀ (w : List Char) (cur : List Char), (∀ c ∈ w, pyIsSpace c = false) →
      pyWordsAux cur w = if cur = [] ∧ w = [] then [] else [cur.reverse ++ w] := by
  intro w
  induction w with
  | nil => intro cur _; by_cases h : cur = [] <;> simp [pyWordsAux, h]
  | cons c w ih =>
    intro cur h
    have hc : pyIsSpace c = false := h c (by simp)
    have hw : ∀ d ∈ w, pyIsSpace d = false := fun d hd => h d (by simp [hd])
    simp [pyWordsAux, hc, ih (c :: cur) hw]

theorem pyWords_single {w : List Char} (hne : w ≠ [])
    (h : ∀ c ∈ w, pyIsSpace c = false) : pyWords w = [w] := by
  simp [pyWords, pyWordsAux_no_space w [] h, hne]

theorem flatten_map_pyWords_self {l : List (List Char)}
    (h : ∀ w ∈ l, w ≠ [] ∧ ∀ c ∈ w, pyIsSpace c = false) :
    (l.map pyWords).flatten = l := by
  induction l with
  | nil => simp
  | cons w l ih =>
    have hw := h w (by simp)
    have hl : ∀ w ∈ l, w ≠ [] ∧ ∀ c ∈ w, pyIsSpace c = false :=
      fun v hv => h v (by simp [hv])
    simp [pyWords_single hw.1 hw.2, ih hl]

/-! ### Lemmas about `pyStrip` -/

theorem pyLStrip_words (s : List Char) : pyWords (pyLStrip s) = pyWords s := by
  conv_rhs => rw [← List.takeWhile_append_dropWhile (p := pyIsSpace) (l := s)]
  exact (pyWords_leading_space _ (fun c hc => List.mem_takeWhile_imp hc) _).symm

theorem pyRStrip_decomp (s : List Char) :
    s = pyRStrip s ++ (s.reverse.takeWhile pyIsSpace).reverse := by
  rw [pyRStrip, ← List.reverse_append, List.takeWhile_append_dropWhile,
    List.reverse_reverse]

theorem pyRStrip_words (s : List Char) : pyWords (pyRStrip s) = pyWords s := by
  conv_rhs => rw [pyRStrip_decomp s]
  exact (pyWords_space_suffix (fun c hc => by
    simpa using List.mem_takeWhile_imp (List.mem_reverse.mp hc)) _).symm

theorem pyStrip_words (s : List Char) : pyWords (pyStrip s) = pyWords s := by
  rw [pyStrip, pyRStrip_words, pyLStrip_words]

theorem dropWhile_length_le (p : Char → Bool) (s : List Char) :
    (s.dropWhile p).length ≤ s.length :=
  (List.dropWhile_suffix p).length_le

theorem pyStrip_length_le (s : List Char) : (pyStrip s).length ≤ s.length := by
  calc (pyStrip s).length ≤ (pyLStrip s).length := by
        simpa [pyStrip, pyRStrip] using dropWhile_length_le pyIsSpace (pyLStrip s).reverse
    _ ≤ s.length := dropWhile_length_le pyIsSpace s

theorem dropWhile_eq_self_of (p : Char → Bool) {s : List Char}
    (h : ∀ c ∈ s, p c = false) : s.dropWhile p = s := by
  cases s with
  | nil => rfl
  | cons c s => rw [List.dropWhile_cons, if_neg (by simp [h c (by simp)])]

theorem pyStrip_no_space {s : List Char} (h : ∀ c ∈ s, pyIsSpace c = false) :
    pyStrip s = s := by
  rw [pyStrip, pyLStrip, dropWhile_eq_self_of pyIsSpace h, pyRStrip,
    dropWhile_eq_self_of pyIsSpace (fun c hc => h c (List.mem_reverse.mp hc)),
    List.reverse_reverse]

theorem dropWhile_head_false (p : Char → Bool) :
    ∀ (s : List Char) {c : Char} {t : List Char}, s.dropWhile p = c :: t → p c = false := by
  intro s
  induction s with
  | nil => intro c t h; simp at h
  | cons d s ih =>
    intro c t h
    rw [List.dropWhile_cons] at h
    by_cases hd : p d
    · rw [if_pos hd] at h
      exact ih h
    · rw [if_neg hd] at h
      cases h
      simpa using hd

theorem pyLStrip_head_false {s c t} (h : pyLStrip s = c :: t) : pyIsSpace c = false :=
  dropWhile_head_false pyIsSpace s h

theorem pyRStrip_head_false {s c t} (h : pyRStrip s = c :: t) :
    pyIsSpace c = false ∨ pyLStrip s ≠ s := by
  by_cases hs : pyLStrip s = s
  · left
    cases hcase : s with
    | nil => rw [hcase] at h; simp [pyRStrip] at h
    | cons d s' =>
      have hd : pyIsSpace d = false := by
        rw [hcase] at hs
        rw [pyLStrip, List.dropWhile_cons] at hs
        by_cases hdd : pyIsSpace d
        · exfalso
          rw [if_pos hdd] at hs
          have := congrArg List.length hs
          have hle := dropWhile_length_le pyIsSpace s'
          simp at this
          omega
        · simpa using hdd
      -- `pyRStrip s` is a prefix of `s`, hence shares its head `d`
      have hpre : pyRStrip s <+: s := by
        rw [pyRStrip]
        conv_rhs => rw [← List.reverse_reverse s]
        exact List.reverse_prefix.mpr (List.dropWhile_suffix pyIsSpace)
      rcases hpre with ⟨r, hr⟩
      rw [h, hcase] at hr
      have : c = d := by
        have := congrArg (fun l => l.head?) hr
        simpa using this
      rw [this]
      exact hd
  · right; exact hs

theorem dropWhile_idem (p : Char → Bool) (s : List Char) :
    (s.dropWhile p).dropWhile p = s.dropWhile p := by
  cases hcase : s.dropWhile p with
  | nil => rfl
  | cons c t =>
    rw [List.dropWhile_cons, if_neg (by simp [dropWhile_head_false p s hcase])]

theorem pyLStrip_idem (s : List Char) : pyLStrip (pyLStrip s) = pyLStrip s :=
  dropWhile_idem pyIsSpace s

theorem pyRStrip_idem (t : List Char) : pyRStrip (pyRStrip t) = pyRStrip t := by
  rw [pyRStrip, pyRStrip, List.reverse_reverse, dropWhile_idem]

theorem pyStrip_idem (s : List Char) : pyStrip (pyStrip s) = pyStrip s := by
  have hL : pyLStrip (pyStrip s) = pyStrip s := by
    cases hcase : pyStrip s with
    | nil => rfl
    | cons c t =>
      have hc : pyIsSpace c = false := by
        rcases pyRStrip_head_false (s := pyLStrip s) (by rw [← pyStrip, hcase]) with h | h
        · exact h
        · exact absurd (pyLStrip_idem s) h
      rw [pyLStrip, List.dropWhile_cons, if_neg (by simp [hc])]
  calc pyStrip (pyStrip s) = pyRStrip (pyStrip s) := by rw [pyStrip, hL]
    _ = pyRStrip (pyLStrip s) := by rw [pyStrip, pyRStrip_idem]
    _ = pyStrip s := rfl

/-! ### Reconstruction lemmas for the three splitters -/

theorem interleave_cons_piece {c : Char} {p : List Char} {ps seps : List (List Char)}
    (h : seps.length + 1 = (p :: ps).length) :
    interleave ((c :: p) :: ps) seps = c :: interleave (p :: ps) seps := by
  cases seps with
  | nil =>
    have hlen0 : ps.length = 0 := by
      simp only [List.length_nil, List.length_cons] at h
      omega
    have hps : ps = [] := List.eq_nil_of_length_eq_zero hlen0
    subst hps
    simp [interleave]
  | cons w ws => simp [interleave]

theorem pyWords_interleave :
    ∀ (seps pieces : List (List Char)), pieces.length = seps.length + 1 →
      GoodSeps seps → pyWords (interleave pieces seps) = (pieces.map pyWords).flatten := by
  intro seps
  induction seps with
  | nil =>
    intro pieces hlen _
    match pieces, hlen with
    | [p], _ => simp [interleave]
  | cons w ws ih =>
    intro pieces hlen hgood
    match pieces, hlen with
    | p :: ps, hlen =>
      have hps : ps.length = ws.length + 1 := by simpa using hlen
      have hw := hgood w (by simp)
      have hws : GoodSeps ws := fun v hv => hgood v (by simp [hv])
      have hstep : interleave (p :: ps) (w :: ws) = p ++ (w ++ interleave ps ws) := by
        simp [interleave]
      rw [hstep]
      cases w with
      | nil => exact absurd rfl hw.1
      | cons e w2 =>
        have he : pyIsSpace e = true := hw.2 e (by simp)
        have hw2 : ∀ c ∈ w2, pyIsSpace c = true := fun c hc => hw.2 c (by simp [hc])
        rw [List.cons_append, pyWords_append_space he, pyWords_leading_space w2 hw2,
          ih ps hps hws]
        simp

theorem splitOnNN_ne_nil : ∀ (s : List Char), splitOnNN s ≠ [] := by
  intro s
  match s with
  | [] => simp [splitOnNN]
  | [c] => simp [splitOnNN]
  | c :: d :: rest =>
    rw [splitOnNN]
    by_cases h : (c = '\n' && d = '\n') = true
    · simp [h]
    · simp only [h, if_false, Bool.false_eq_true]
      cases hm : splitOnNN (d :: rest) <;> simp

theorem splitOnNN_reconstruct :
    ∀ (n : Nat) (s : List Char), s.length ≤ n →
      ∃ seps, seps.length + 1 = (splitOnNN s).length ∧
        (∀ w ∈ seps, w = [ '\n', '\n']) ∧ interleave (splitOnNN s) seps = s := by
  intro n
  induction n with
  | zero =>
    intro s hs
    have : s = [] := List.eq_nil_of_length_eq_zero (Nat.le_zero.mp hs)
    subst this
    exact ⟨[], by simp [splitOnNN], by simp, by simp [splitOnNN, interleave]⟩
  | succ n ih =>
    intro s hs
    match s with
    | [] => exact ⟨[], by simp [splitOnNN], by simp, by simp [splitOnNN, interleave]⟩
    | [c] => exact ⟨[], by simp [splitOnNN], by simp, by simp [splitOnNN, interleave]⟩
    | c :: d :: rest =>
      by_cases h : (c = '\n' && d = '\n') = true
      · have hlen : rest.length ≤ n := by
          have := hs
          simp at this
          omega
        obtain ⟨seps, hl, hgood, hint⟩ := ih rest hlen
        rcases Bool.and_eq_true_iff.mp h with ⟨hc, hd⟩
        have hc : c = '\n' := by simpa using hc
        have hd : d = '\n' := by simpa using hd
        subst hc; subst hd
        refine ⟨[ '\n', '\n'] :: seps, ?_, ?_, ?_⟩
        · simp [splitOnNN]
          omega
        · intro w hw
          rcases List.mem_cons.mp hw with rfl | hw
          · rfl
          · exact hgood w hw
        · have hne := splitOnNN_ne_nil rest
          rw [splitOnNN, if_pos (by decide)]
          cases hm : splitOnNN rest with
          | nil => exact absurd hm hne
          | cons p ps =>
            rw [hm] at hint
            simp [interleave, hint]
      · have hlen : (d :: rest).length ≤ n := by
          simp at hs ⊢
          omega
        obtain ⟨seps, hl, hgood, hint⟩ := ih (d :: rest) hlen
        cases hm : splitOnNN (d :: rest) with
        | nil => exact absurd hm (splitOnNN_ne_nil _)
        | cons p ps =>
          rw [hm] at hint hl
          have heq : splitOnNN (c :: d :: rest) = (c :: p) :: ps := by
            rw [splitOnNN]
            simp only [h, if_false, Bool.false_eq_true, hm]
          refine ⟨seps, ?_, hgood, ?_⟩
          · rw [heq]
            simpa using hl
          · rw [heq, interleave_cons_piece (by simpa using hl), hint]

theorem pyWords_splitOnNN (s : List Char) :
    ((splitOnNN s).map pyWords).flatten = pyWords s := by
  obtain ⟨seps, hl, hgood, hint⟩ := splitOnNN_reconstruct s.length s le_rfl
  have hgood2 : GoodSeps seps := by
    intro w hw
    rw [hgood w hw]
    refine ⟨by simp, ?_⟩
    intro c hc
    rcases List.mem_cons.mp hc with rfl | hc
    · rfl
    · simp at hc
      subst hc
      rfl
  rw [← pyWords_interleave seps (splitOnNN s) hl.symm hgood2, hint]

theorem sentAux_ne_nil : ∀ (s : List Char) (b : Bool), sentAux b s ≠ [] := by
  intro s
  induction s with
  | nil => intro b; simp [sentAux]
  | cons c rest ih =>
    intro b
    rw [sentAux]
    by_cases h1 : (b && pyIsSpace c) = true
    · simp only [h1, if_true]
      exact ih true
    · simp only [h1, if_false, Bool.false_eq_true]
      by_cases h2 : (sentPunct c && headSpace rest) = true
      · simp [h2]
      · simp only [h2, if_false, Bool.false_eq_true]
        cases hm : sentAux false rest <;> simp

theorem sentAux_true_decomp :
    ∀ (s : List Char), ∃ ws s2, s = ws ++ s2 ∧ (∀ c ∈ ws, pyIsSpace c = true) ∧
      sentAux true s = sentAux false s2 ∧ headSpace s2 = false := by
  intro s
  induction s with
  | nil => exact ⟨[], [], by simp, by simp, rfl, rfl⟩
  | cons c rest ih =>
    by_cases hc : pyIsSpace c = true
    · obtain ⟨ws, s2, hdec, hsp, heq, hh⟩ := ih
      refine ⟨c :: ws, s2, by simp [hdec], ?_, ?_, hh⟩
      · intro e he
        rcases List.mem_cons.mp he with rfl | he
        · exact hc
        · exact hsp e he
      · rw [sentAux]
        simp only [hc, Bool.and_true, Bool.and_self, if_true, heq]
    · refine ⟨[], c :: rest, by simp, by simp, ?_, by simpa [headSpace] using hc⟩
      rw [sentAux, sentAux]
      simp only [hc, Bool.and_false, Bool.false_and, if_false]

theorem sentAux_reconstruct :
    ∀ (n : Nat) (s : List Char), s.length ≤ n →
      ∃ seps, seps.length + 1 = (sentAux false s).length ∧ GoodSeps seps ∧
        interleave (sentAux false s) seps = s := by
  intro n
  induction n with
  | zero =>
    intro s hs
    have : s = [] := List.eq_nil_of_length_eq_zero (Nat.le_zero.mp hs)
    subst this
    exact ⟨[], by simp [sentAux], by simp [GoodSeps], by simp [sentAux, interleave]⟩
  | succ n ih =>
    intro s hs
    match s with
    | [] => exact ⟨[], by simp [sentAux], by simp [GoodSeps], by simp [sentAux, interleave]⟩
    | c :: rest =>
      have hrest : rest.length ≤ n := by simpa using hs
      by_cases h2 : (sentPunct c && headSpace rest) = true
      · obtain ⟨ws, s2, hdec, hsp, heq, hh⟩ := sentAux_true_decomp rest
        have hwne : ws ≠ [] := by
          intro hcon
          subst hcon
          simp at hdec
          subst hdec
          rw [(Bool.and_eq_true_iff.mp h2).2] at hh
          exact Bool.noConfusion hh
        have hs2 : s2.length ≤ n := by
          have : rest.length = ws.length + s2.length := by simp [hdec]
          omega
        obtain ⟨seps2, hl2, hgood2, hint2⟩ := ih s2 hs2
        have hpieces : sentAux false (c :: rest) = [c] :: sentAux false s2 := by
          rw [sentAux]
          simp only [Bool.false_and, if_false, h2, if_true, heq, Bool.false_eq_true]
        refine ⟨ws :: seps2, ?_, ?_, ?_⟩
        · rw [hpieces]
          simp only [List.length_cons]
          omega
        · intro w hw
          rcases List.mem_cons.mp hw with rfl | hw
          · exact ⟨hwne, hsp⟩
          · exact hgood2 w hw
        · rw [hpieces]
          cases hm : sentAux false s2 with
          | nil => exact absurd hm (sentAux_ne_nil s2 false)
          | cons p ps =>
            rw [hm] at hint2
            simp [interleave, hint2, hdec]
      · obtain ⟨seps, hl, hgood, hint⟩ := ih rest hrest
        cases hm : sentAux false rest with
        | nil => exact absurd hm (sentAux_ne_nil rest false)
        | cons p ps =>
          rw [hm] at hint hl
          have hpieces : sentAux false (c :: rest) = (c :: p) :: ps := by
            rw [sentAux]
            simp only [Bool.false_and, if_false, h2, hm, Bool.false_eq_true]
          refine ⟨seps, ?_, hgood, ?_⟩
          · rw [hpieces]
            simpa using hl
          · rw [hpieces, interleave_cons_piece (by simpa using hl), hint]

theorem pyWords_splitSentences (s : List Char) :
    ((splitSentences s).map pyWords).flatten = pyWords s := by
  obtain ⟨seps, hl, hgood, hint⟩ := sentAux_reconstruct s.length s le_rfl
  rw [splitSentences, ← pyWords_interleave seps (sentAux false s) hl.symm hgood, hint]

theorem pyWords_joinWithSpace :
    ∀ (l : List (List Char)), pyWords (joinWithSpace l) = (l.map pyWords).flatten := by
  intro l
  induction l with
  | nil => simp [joinWithSpace, pyWords, pyWordsAux]
  | cons p ps ih =>
    cases ps with
    | nil => simp [joinWithSpace]
    | cons q ps2 =>
      rw [joinWithSpace, pyWords_append_space (by rfl), ih]
      simp

/-! ### Word preservation through `split_text` -/

theorem foldl_words {α : Type} (f : List (List Char) × List Char → α →
      List (List Char) × List Char) (g : α → List (List Char))
    (hf : ∀ st a, stWords (f st a) = stWords st ++ g a) :
    ∀ (l : List α) (st), stWords (l.foldl f st) = stWords st ++ (l.map g).flatten := by
  intro l
  induction l with
  | nil => intro st; simp
  | cons a l ih =>
    intro st
    rw [List.foldl_cons, ih (f st a), hf st a]
    simp

theorem addWord_words (m : Int) (st : List (List Char) × List Char) (w : List Char) :
    stWords (addWord m st w) = stWords st ++ pyWords w := by
  rw [addWord]
  by_cases h : ((st.2.length : Int) + (w.length : Int) + 1 > m)
  · rw [if_pos h]
    simp [stWords, pyStrip_words]
  · rw [if_neg h]
    by_cases h2 : st.2 = []
    · simp [stWords, h2, pyWords, pyWordsAux]
    · rw [if_neg h2]
      simp [stWords, pyWords_append_space (c := ' ') rfl]

theorem addSentence_words (m : Int) (st : List (List Char) × List Char)
    (s : List Char) : stWords (addSentence m st s) = stWords st ++ pyWords s := by
  rw [addSentence]
  by_cases h : ((s.length : Int) > m)
  · rw [if_pos h, foldl_words (addWord m) pyWords (addWord_words m)]
    congr 1
    exact flatten_map_pyWords_self (fun w hw => pyWords_mem hw)
  · rw [if_neg h]
    by_cases h2 : ((st.2.length : Int) + (s.length : Int) + 1 > m)
    · rw [if_pos h2]
      simp [stWords, pyStrip_words]
    · rw [if_neg h2]
      by_cases h3 : st.2 = []
      · simp [stWords, h3, pyWords, pyWordsAux]
      · rw [if_neg h3]
        simp [stWords, pyWords_append_space (c := ' ') rfl]

theorem addParagraph_words (m : Int) (st : List (List Char) × List Char)
    (p : List Char) : stWords (addParagraph m st p) = stWords st ++ pyWords p := by
  rw [addParagraph]
  by_cases h : ((p.length : Int) > m)
  · rw [if_pos h, foldl_words (addSentence m) pyWords (addSentence_words m),
      pyWords_splitSentences]
    by_cases h2 : st.2 = []
    · simp [h2]
    · rw [if_neg h2]
      simp [stWords, pyStrip_words]
  · rw [if_neg h]
    by_cases h2 : ((st.2.length : Int) + (p.length : Int) + 2 > m)
    · rw [if_pos h2]
      simp [stWords, pyStrip_words]
    · rw [if_neg h2]
      by_cases h3 : st.2 = []
      · simp [stWords, h3, pyWords, pyWordsAux]
      · rw [if_neg h3]
        have hnl : pyWords (st.2 ++ '\n' :: '\n' :: p) = pyWords st.2 ++ pyWords p := by
          have hpre : pyWords ('\n' :: p) = pyWords p :=
            pyWords_leading_space [ '\n'] (by simp; decide) p
          rw [pyWords_append_space (c := '\n') (by decide), hpre]
        simp [stWords, hnl]

theorem split_text_words (s : List Char) (m : Int) :
    ((split_text s m).map pyWords).flatten = pyWords s := by
  rw [split_text]
  by_cases h : ((s.length : Int) ≤ m)
  · rw [if_pos h]
    simp
  · rw [if_neg h]
    have hfold := foldl_words (addParagraph m) pyWords (addParagraph_words m)
      (splitOnNN s) ([], [])
    rw [pyWords_splitOnNN] at hfold
    have hbase : stWords (([], []) : List (List Char) × List Char) = [] := by
      simp [stWords, pyWords, pyWordsAux]
    rw [hbase, List.nil_append] at hfold
    set st := (splitOnNN s).foldl (addParagraph m) ([], []) with hst
    by_cases h2 : pyStrip st.2 = []
    · rw [if_pos h2]
      have hcur : pyWords st.2 = [] := by
        rw [← pyStrip_words, h2, pyWords, pyWordsAux]
        rfl
      rw [← hfold, stWords, hcur, List.append_nil]
    · rw [if_neg h2]
      rw [← hfold, stWords]
      simp [pyStrip_words]

/-! ### The length invariant of `split_text` -/

theorem foldl_preserve {α β : Type} (f : β → α → β) (P : β → Prop) (Q : α → Prop)
    (hf : ∀ b a, P b → Q a → P (f b a)) :
    ∀ (l : List α) (b : β), P b → (∀ a ∈ l, Q a) → P (l.foldl f b) := by
  intro l
  induction l with
  | nil => intro b hb _; exact hb
  | cons a l ih =>
    intro b hb hl
    exact ih (f b a) (hf b a hb (hl a (by simp))) (fun x hx => hl x (by simp [hx]))

theorem SegOk_strip {m : Int} {p : List Char} (h : SegOk m p) : SegOk m (pyStrip p) := by
  rcases h with h | h
  · left
    have h1 : ((pyStrip p).length : Int) ≤ (p.length : Int) := by
      exact_mod_cast pyStrip_length_le p
    omega
  · right
    rw [pyStrip_no_space h]
    exact h

theorem addWord_ok (m : Int) (st : List (List Char) × List Char) (w : List Char)
    (hst : StOk m st) (hw : ∀ c ∈ w, pyIsSpace c = false) :
    StOk m (addWord m st w) := by
  rw [addWord]
  by_cases h : ((st.2.length : Int) + (w.length : Int) + 1 > m)
  · rw [if_pos h]
    refine ⟨?_, Or.inr hw⟩
    intro p hp
    rcases List.mem_append.mp hp with hp | hp
    · exact hst.1 p hp
    · simp at hp
      subst hp
      exact SegOk_strip hst.2
  · rw [if_neg h]
    refine ⟨hst.1, ?_⟩
    by_cases h2 : st.2 = []
    · simp only [h2, if_pos]
      left
      simp at h
      omega
    · rw [if_neg h2]
      left
      simp at h
      simp
      omega

theorem addSentence_ok (m : Int) (st : List (List Char) × List Char) (s : List Char)
    (hst : StOk m st) : StOk m (addSentence m st s) := by
  rw [addSentence]
  by_cases h : ((s.length : Int) > m)
  · rw [if_pos h]
    exact foldl_preserve (addWord m) (StOk m) (fun w => ∀ c ∈ w, pyIsSpace c = false)
      (addWord_ok m) (pyWords s) st hst (fun w hw => (pyWords_mem hw).2)
  · rw [if_neg h]
    by_cases h2 : ((st.2.length : Int) + (s.length : Int) + 1 > m)
    · rw [if_pos h2]
      refine ⟨?_, Or.inl (by show ((s.length : Int)) ≤ m; omega)⟩
      intro p hp
      rcases List.mem_append.mp hp with hp | hp
      · exact hst.1 p hp
      · simp at hp
        subst hp
        exact SegOk_strip hst.2
    · rw [if_neg h2]
      refine ⟨hst.1, ?_⟩
      show SegOk m (if st.2 = [] then s else st.2 ++ ' ' :: s)
      by_cases h3 : st.2 = []
      · rw [if_pos h3]
        left
        omega
      · rw [if_neg h3]
        left
        simp at h2
        simp
        omega

theorem addParagraph_ok (m : Int) (st : List (List Char) × List Char) (p : List Char)
    (hst : StOk m st) : StOk m (addParagraph m st p) := by
  rw [addParagraph]
  by_cases h : ((p.length : Int) > m)
  · rw [if_pos h]
    refine foldl_preserve (addSentence m) (StOk m) (fun _ => True)
      (fun b a hb _ => addSentence_ok m b a hb) (splitSentences p) _ ?_ (fun _ _ => trivial)
    by_cases h2 : st.2 = []
    · simpa [h2] using hst
    · rw [if_neg h2]
      refine ⟨?_, Or.inr (by simp)⟩
      intro q hq
      rcases List.mem_append.mp hq with hq | hq
      · exact hst.1 q hq
      · simp at hq
        subst hq
        exact SegOk_strip hst.2
  · rw [if_neg h]
    by_cases h2 : ((st.2.length : Int) + (p.length : Int) + 2 > m)
    · rw [if_pos h2]
      refine ⟨?_, Or.inl (by show ((p.length : Int)) ≤ m; omega)⟩
      intro q hq
      rcases List.mem_append.mp hq with hq | hq
      · exact hst.1 q hq
      · simp at hq
        subst hq
        exact SegOk_strip hst.2
    · rw [if_neg h2]
      refine ⟨hst.1, ?_⟩
      show SegOk m (if st.2 = [] then p else st.2 ++ '\n' :: '\n' :: p)
      by_cases h3 : st.2 = []
      · rw [if_pos h3]
        left
        omega
      · rw [if_neg h3]
        left
        simp at h2
        simp
        omega

theorem split_text_ok (s : List Char) (m : Int) :
    ∀ p ∈ split_text s m, SegOk m p := by
  rw [split_text]
  by_cases h : ((s.length : Int) ≤ m)
  · rw [if_pos h]
    intro p hp
    simp at hp
    subst hp
    exact Or.inl h
  · rw [if_neg h]
    have hst : StOk m ((splitOnNN s).foldl (addParagraph m) ([], [])) := by
      refine foldl_preserve (addParagraph m) (StOk m) (fun _ => True)
        (fun b a hb _ => addParagraph_ok m b a hb) (splitOnNN s) _ ?_ (fun _ _ => trivial)
      exact ⟨by simp, Or.inr (by simp)⟩
    set st := (splitOnNN s).foldl (addParagraph m) ([], [])
    by_cases h2 : pyStrip st.2 = []
    · rw [if_pos h2]
      exact hst.1
    · rw [if_neg h2]
      intro p hp
      rcases List.mem_append.mp hp with hp | hp
      · exact hst.1 p hp
      · simp at hp
        subst hp
        exact SegOk_strip hst.2

/-! ### Session store lemmas -/

theorem storeGet_put_same (d : TranscriptStore) (k : Int) (v : List Char) :
    storeGet (storePut d k v) k = some v := by
  simp [storeGet, storePut]

theorem storeGet_put_other {k q : Int} (hne : q ≠ k) (d : TranscriptStore)
    (v : List Char) : storeGet (storePut d q v) k = storeGet d k := by
  simp [storeGet, storePut, hne]

theorem runPuts_get_none {k : Int} :
    ∀ (ops : List (Int × List Char)) (d : TranscriptStore),
      (∀ e ∈ ops, e.1 ≠ k) → storeGet d k = none →
      storeGet (ops.foldl (fun d e => storePut d e.1 e.2) d) k = none := by
  intro ops
  induction ops with
  | nil => intro d _ hd; exact hd
  | cons e ops ih =>
    intro d h hd
    rw [List.foldl_cons]
    refine ih (storePut d e.1 e.2) (fun x hx => h x (by simp [hx])) ?_
    rw [storeGet_put_other (h e (by simp)), hd]

theorem runEvents_entries (events : List (Int × List Char)) :
    ∀ e ∈ runEvents events, e.2 ≠ [] ∧ pyStrip e.2 = e.2 := by
  rw [runEvents]
  refine foldl_preserve (fun d e => handleTranscription d e.1 e.2)
    (fun d : TranscriptStore => ∀ e ∈ d, e.2 ≠ [] ∧ pyStrip e.2 = e.2)
    (fun _ => True) ?_ events [] (by simp) (fun _ _ => trivial)
  intro d a hd _
  simp only [handleTranscription]
  by_cases hcase : pyStrip a.2 = []
  · rw [if_pos hcase]
    exact hd
  · rw [if_neg hcase]
    intro e he
    rcases List.mem_cons.mp he with rfl | he
    · exact ⟨hcase, pyStrip_idem a.2⟩
    · exact hd e he

/-! ### Rational form of the language threshold -/

theorem ratio_ge_iff (c n : Nat) (hn : 0 < n) :
    ((c : ℚ) / (n : ℚ) ≥ 3 / 10) ↔ 10 * c ≥ 3 * n := by
  rw [ge_iff_le, div_le_div_iff₀ (by norm_num) (by exact_mod_cast hn)]
  constructor
  · intro h
    have h2 : 3 * n ≤ c * 10 := by exact_mod_cast h
    omega
  · intro h
    have h2 : 3 * n ≤ c * 10 := by omega
    exact_mod_cast h2

theorem detect_language_eq_ru_iff (s : List Char) (hs : findLetters s ≠ []) :
    detect_language s = [ 'r', 'u'] ↔
      ((findCyrillic s).length : ℚ) / ((findLetters s).length : ℚ) ≥ 3 / 10 := by
  have hn : 0 < (findLetters s).length := List.length_pos.mpr hs
  simp only [detect_language]
  rw [if_neg hs]
  by_cases hc : 10 * (findCyrillic s).length ≥ 3 * (findLetters s).length
  · rw [if_pos hc]
    simp [(ratio_ge_iff _ _ hn).mpr hc]
  · rw [if_neg hc]
    constructor
    · intro h
      exact absurd h (by decide)
    · intro h
      exact absurd ((ratio_ge_iff _ _ hn).mp h) hc

/-! ### Claim C2 -/

/-- C2 counterexample: on the empty string (and on any other string with
no letters, such as `"123"`) `detect_language` returns `'ru'`, which is the
SECONDARY (Cyrillic) tag, not the PRIMARY (`'en'`) tag the claim states. -/
theorem C2_default_counterexample :
    detect_language [] = [ 'r', 'u'] ∧
    detect_language [ '1', '2', '3'] = [ 'r', 'u'] ∧
    ([ 'r', 'u'] : List Char) ≠ [ 'e', 'n'] := by decide

/-- C2 (amended): for every input string containing no letters (including
the empty string), `detect_language` returns the SECONDARY tag `'ru'` as
its default. -/
theorem C2_default_secondary (s : List Char) (h : findLetters s = []) :
    detect_language s = [ 'r', 'u'] := by
  simp only [detect_language]
  rw [if_pos h]

/-- C2 witness: the amended theorem applied to the empty string. -/
theorem C2_default_secondary_witness :
    findLetters [] = [] ∧ detect_language [] = [ 'r', 'u'] :=
  ⟨by decide, C2_default_secondary [] (by decide)⟩

/-! ### Claim C6 -/

/-- C6: for every string `s` and budget `m > 0` with `len(s) ≤ m`,
`split_text(s, m)` returns exactly `[s]`; in particular the empty string
yields a single empty segment. -/
theorem C6_short_input_identity (s : List Char) (m : Int) (hm : 0 < m)
    (hlen : (s.length : Int) ≤ m) :
    split_text s m = [s] ∧ split_text [] m = [[]] := by
  constructor
  · rw [split_text, if_pos hlen]
  · rw [split_text, if_pos (show ((([] : List Char).length : Int) ≤ m) by simp; omega)]

/-- C6 witness: the theorem applied to `s = "ab"`, `m = 5`. -/
theorem C6_short_input_identity_witness :
    (0 : Int) < 5 ∧ ((([ 'a', 'b'] : List Char).length : Int) ≤ 5) ∧
      split_text [ 'a', 'b'] 5 = [[ 'a', 'b']] ∧ split_text [] 5 = [[]] :=
  ⟨by decide, by decide,
    (C6_short_input_identity [ 'a', 'b'] 5 (by decide) (by decide)).1,
    (C6_short_input_identity [ 'a', 'b'] 5 (by decide) (by decide)).2⟩

/-! ### Claim C7 -/

/-- C7: for the session store, `get` after `put(id, text)` returns that
text; `get` on an identifier never put (over any history of raw `put`s)
returns `none` rather than failing; and when the same identifier is put
twice the later value wins. -/
theorem C7_store_semantics :
    (∀ (d : TranscriptStore) (k : Int) (v : List Char),
        storeGet (storePut d k v) k = some v) ∧
    (∀ (ops : List (Int × List Char)) (k : Int), (∀ e ∈ ops, e.1 ≠ k) →
        storeGet (runPuts ops) k = none) ∧
    (∀ (d : TranscriptStore) (k : Int) (v1 v2 : List Char),
        storeGet (storePut (storePut d k v1) k v2) k = some v2) :=
  ⟨storeGet_put_same, fun ops _ h => runPuts_get_none ops [] h rfl,
   fun d k v1 v2 => storeGet_put_same (storePut d k v1) k v2⟩

/-- C7 witness: the three store properties at concrete inputs. -/
theorem C7_store_semantics_witness :
    storeGet (storePut [] 1 [ 'x']) 1 = some [ 'x'] ∧
    storeGet (runPuts [(1, [ 'x'])]) 2 = none ∧
    storeGet (storePut (storePut [] 1 [ 'x']) 1 [ 'y']) 1 = some [ 'y'] :=
  ⟨C7_store_semantics.1 [] 1 [ 'x'],
   C7_store_semantics.2.1 [(1, [ 'x'])] 2 (by decide),
   C7_store_semantics.2.2 [] 1 [ 'x'] [ 'y']⟩

/-! ### Claim C8 -/

/-- C8: for strings with at least one letter, `detect_language` returns
`'ru'` exactly when the Cyrillic-to-letters ratio is at least `3/10`
(and `'en'` otherwise); a string whose letters are exactly 30 percent
Cyrillic is classified `'ru'` and one with 29 percent is classified
`'en'`. -/
theorem C8_threshold :
    (∀ s : List Char, findLetters s ≠ [] →
      (detect_language s = [ 'r', 'u'] ↔
        ((findCyrillic s).length : ℚ) / ((findLetters s).length : ℚ) ≥ 3 / 10)) ∧
    10 * (findCyrillic exCyr30).length = 3 * (findLetters exCyr30).length ∧
    detect_language exCyr30 = [ 'r', 'u'] ∧
    100 * (findCyrillic exCyr29).length = 29 * (findLetters exCyr29).length ∧
    detect_language exCyr29 = [ 'e', 'n'] :=
  ⟨detect_language_eq_ru_iff, by decide, by decide, by decide, by decide⟩

/-- C8 witness: the threshold equivalence applied to the 30-percent
string. -/
theorem C8_threshold_witness :
    findLetters exCyr30 ≠ [] ∧
    (detect_language exCyr30 = [ 'r', 'u'] ↔
      ((findCyrillic exCyr30).length : ℚ) / ((findLetters exCyr30).length : ℚ) ≥ 3 / 10) :=
  ⟨by decide, C8_threshold.1 exCyr30 (by decide)⟩

/-! ### Claim C9 -/

/-- C9: every value retrievable from a store produced by any sequence of
voice/audio transcription events is a non-empty string equal to its own
strip (no leading or trailing whitespace), so a stored transcript is never
confused with the absent case by Python truthiness. -/
theorem C9_store_invariant (events : List (Int × List Char)) (k : Int)
    (v : List Char) (h : storeGet (runEvents events) k = some v) :
    v ≠ [] ∧ pyStrip v = v := by
  rcases hfind : (runEvents events).find? (fun e => e.1 = k) with _ | e
  · rw [storeGet, hfind] at h
    simp at h
  · rw [storeGet, hfind] at h
    simp at h
    have hres := runEvents_entries events e (List.mem_of_find?_eq_some hfind)
    rw [← h]
    exact hres

/-- C9 witness: one event whose provider text carries surrounding
whitespace. -/
theorem C9_store_invariant_witness :
    storeGet (runEvents [(1, [ ' ', 'h', ' '])]) 1 = some [ 'h'] ∧
      ([ 'h'] : List Char) ≠ [] ∧ pyStrip [ 'h'] = [ 'h'] :=
  ⟨by decide,
    (C9_store_invariant [(1, [ ' ', 'h', ' '])] 1 [ 'h'] (by decide)).1,
    (C9_store_invariant [(1, [ ' ', 'h', ' '])] 1 [ 'h'] (by decide)).2⟩

/-! ### Claim C10 -/

/-- C10: a non-empty whitespace-only string longer than the (positive)
budget yields zero segments, while the empty string yields one empty
segment. -/
theorem C10_empty_output :
    split_text [ ' ', ' ', ' '] 1 = [] ∧ ([ ' ', ' ', ' '] : List Char) ≠ [] ∧
      (0 : Int) < 1 ∧ split_text [] 1 = [[]] := by decide

/-! ### Claim C1 -/

/-- C1 counterexample: with budget `1`, the input `"ab"` (a single
whitespace-delimited word longer than the budget) produces a segment of
length `2 > 1`, so not every returned segment has length at most the
budget. -/
theorem C1_claim_counterexample :
    (0 : Int) < 1 ∧ ([ 'a', 'b'] ∈ split_text [ 'a', 'b'] 1) ∧
      ¬ ((([ 'a', 'b'] : List Char).length : Int) ≤ 1) := by decide

/-- C1 (amended): for every string `s` and budget `m > 0`, every segment
returned by `split_text(s, m)` either has length at most `m` or is a
single oversized whitespace-free word (the documented no-mid-word-splitting
edge case). -/
theorem C1_segment_bound_amended (s : List Char) (m : Int) (hm : 0 < m) :
    ∀ p ∈ split_text s m, (p.length : Int) ≤ m ∨
      ((∀ c ∈ p, pyIsSpace c = false) ∧ p ≠ []) := by
  intro p hp
  rcases split_text_ok s m p hp with h | h
  · exact Or.inl h
  · by_cases hlen : (p.length : Int) ≤ m
    · exact Or.inl hlen
    · refine Or.inr ⟨h, ?_⟩
      intro hcon
      subst hcon
      simp at hlen
      omega

/-- C1 witness: the amended bound at `s = "ab cd"`, `m = 2`, segment
`"ab"`. -/
theorem C1_segment_bound_amended_witness :
    (0 : Int) < 2 ∧ ([ 'a', 'b'] ∈ split_text [ 'a', 'b', ' ', 'c', 'd'] 2) ∧
      ((([ 'a', 'b'] : List Char).length : Int) ≤ 2 ∨
        ((∀ c ∈ ([ 'a', 'b'] : List Char), pyIsSpace c = false) ∧
          ([ 'a', 'b'] : List Char) ≠ [])) :=
  ⟨by decide, by decide,
    C1_segment_bound_amended [ 'a', 'b', ' ', 'c', 'd'] 2 (by decide)
      [ 'a', 'b'] (by decide)⟩

/-! ### Claim C5 -/

/-- C5: for every string `s` and budget `m > 0`, the ordered sequence of
whitespace-delimited words of the segments returned by `split_text(s, m)`
(equivalently, of the segments joined by single spaces) equals the ordered
sequence of whitespace-delimited words of `s`: no content is dropped,
duplicated or reordered. -/
theorem C5_words_preserved (s : List Char) (m : Int) (_hm : 0 < m) :
    ((split_text s m).map pyWords).flatten = pyWords s ∧
      pyWords (joinWithSpace (split_text s m)) = pyWords s := by
  refine ⟨split_text_words s m, ?_⟩
  rw [pyWords_joinWithSpace, split_text_words]

/-- C5 witness: word preservation at `s = "ab cd"`, `m = 2`. -/
theorem C5_words_preserved_witness :
    (0 : Int) < 2 ∧
      ((split_text [ 'a', 'b', ' ', 'c', 'd'] 2).map pyWords).flatten =
        pyWords [ 'a', 'b', ' ', 'c', 'd'] :=
  ⟨by decide, (C5_words_preserved [ 'a', 'b', ' ', 'c', 'd'] 2 (by decide)).1⟩

/-! ### Claim C3 -/

/-- C3 counterexample: a 30-word transcript in the PRIMARY (`'en'`)
language already crosses the code's 20-word summary threshold, so
`build_keyboard` returns TWO button rows (summarize and
translate-to-`'ru'`), not only the translate button the claim states. -/
theorem C3_thirty_words_counterexample :
    (pyWords (exText 30)).length = 30 ∧
    detect_language (exText 30) = [ 'e', 'n'] ∧
    build_keyboard (exText 30) 7 =
      [[InlineKeyboardButton.mk ("Краткий пересказ".data) ("summary:7".data)],
       [InlineKeyboardButton.mk ("Перевести на русский".data) ("translate:ru:7".data)]] ∧
    (build_keyboard (exText 30) 7).length ≠ 1 := by decide

/-- C3 (amended): the summary threshold is 20 words, so a 19-word PRIMARY
transcript yields only the translate-to-SECONDARY button, while 30-word
and 60-word PRIMARY transcripts yield both the summarize and the
translate button. -/
theorem C3_keyboard_amended :
    build_keyboard (exText 19) 7 =
      [[InlineKeyboardButton.mk ("Перевести на русский".data) ("translate:ru:7".data)]] ∧
    build_keyboard (exText 30) 7 =
      [[InlineKeyboardButton.mk ("Краткий пересказ".data) ("summary:7".data)],
       [InlineKeyboardButton.mk ("Перевести на русский".data) ("translate:ru:7".data)]] ∧
    build_keyboard (exText 60) 7 =
      [[InlineKeyboardButton.mk ("Краткий пересказ".data) ("summary:7".data)],
       [InlineKeyboardButton.mk ("Перевести на русский".data) ("translate:ru:7".data)]] := by
  decide

/-! ### Claim C4 -/

/-- C4 counterexample: `split_text` called with non-positive budgets does
not fail with an invalid-argument condition: it silently returns a
result. -/
theorem C4_no_raise_counterexample :
    split_text [] 0 = [[]] ∧ split_text [ 'a'] 0 = [[], [ 'a']] ∧
      split_text [ 'a'] (-3) = [[], [ 'a']] := by decide

/-- C4 (amended): `split_text` performs no validation of its budget; for
every budget `m ≤ 0` it returns normally — on the single-character word
`"a"` it returns the two segments `["", "a"]`. -/
theorem C4_nonpositive_budget_amended (m : Int) (hm : m ≤ 0) :
    split_text [ 'a'] m = [[], [ 'a']] := by
  have h1 : ¬ ((([ 'a'] : List Char).length : Int) ≤ m) := by simp; omega
  rw [split_text, if_neg h1]
  have h2 : splitOnNN [ 'a'] = [[ 'a']] := rfl
  rw [h2, List.foldl_cons, List.foldl_nil]
  have h3 : addParagraph m ([], []) [ 'a'] = ([[]], [ 'a']) := by
    rw [addParagraph,
      if_pos (show ((([ 'a'] : List Char).length : Int) > m) by simp; omega)]
    have h4 : splitSentences [ 'a'] = [[ 'a']] := rfl
    simp only [h4, List.foldl_cons, List.foldl_nil]
    show addSentence m ([], []) [ 'a'] = ([[]], [ 'a'])
    rw [addSentence,
      if_pos (show ((([ 'a'] : List Char).length : Int) > m) by simp; omega)]
    have h5 : pyWords [ 'a'] = [[ 'a']] := rfl
    rw [h5, List.foldl_cons, List.foldl_nil]
    rw [addWord,
      if_pos (show ((((([] : List Char)).length : Int) +
        ((([ 'a'] : List Char)).length : Int) + 1 > m)) by simp; omega)]
    rfl
  rw [h3]
  rfl

/-- C4 witness: the amended behaviour at budget `0`. -/
theorem C4_nonpositive_budget_amended_witness :
    (0 : Int) ≤ 0 ∧ split_text [ 'a'] 0 = [[], [ 'a']] :=
  ⟨by decide, C4_nonpositive_budget_amended 0 (by decide)⟩

end WhisperBot
